import Mathlib

/-!
Verification model of the `@list-positions/crdts` package (`src/text_crdt.ts`
and `src/list_crdt.ts`): a hybrid op-based/state-based sequence CRDT built on
the external `list-positions` library.  The two source classes are one
algorithm at two value granularities; we embed the character instance
(`TextCrdt`), whose messages carry a start position plus a run of characters.

The external collaborators (the Order service, the value store `Text`, the
`PositionSet` seen tracker) are outside this repository and are modelled from
their interface contract in the specification (section 6): the order service
is a registry of bunch metadata, the value store is a finite map from
positions to characters read out in position order, and the seen tracker is a
set of positions.  Everything else (message handling, buffering, merging,
snapshotting) is translated directly from the TypeScript source.
-/

namespace Crdt

/-- A position: a bunch identifier plus an index inside the bunch
(list-positions `Position`, as used by `text_crdt.ts`). -/
structure Pos where
  bunchID : String
  innerIndex : Nat
deriving DecidableEq, Repr

/-- Bunch metadata: the bunch's id and its parent bunch's id (list-positions
`BunchMeta`; its `offset` field is never read by this repository's code and is
omitted). -/
structure BunchMeta where
  bunchID : String
  parentID : String
deriving DecidableEq, Repr

/-- The id of the root bunch, which the order service knows from the start. -/
def rootID : String := "ROOT"

/-- Modelled from the spec: the external Order service's node registry.  We
keep the list of registered `BunchMeta`s; `getNode(id) !== undefined` in the
source corresponds to `knownID order id = true` (the root bunch is always
known). -/
def knownID (order : List BunchMeta) (id : String) : Bool :=
  decide (id = rootID) || order.any (fun m => decide (m.bunchID = id))

/-- Modelled from the spec: `Order.addMetas([meta])` registers a bunch's
metadata; registering an already-known bunch is a no-op (spec section 4.5).
The call sites in `receive` check the parent's registration first. -/
def addMeta (order : List BunchMeta) (m : BunchMeta) : List BunchMeta :=
  if knownID order m.bunchID then order else order ++ [m]

/-- Modelled from the spec: `PositionSet.add(pos)` for a single position;
adding an already-seen position is a no-op (spec section 4.1). -/
def seenAddOne (seen : List Pos) (p : Pos) : List Pos :=
  if p ∈ seen then seen else seen ++ [p]

/-- Modelled from the spec: `PositionSet.add(startPos, count)` marks the
contiguous run of `count` positions of the same bunch starting at `startPos`
as seen (spec section 4.1). -/
def seenAdd (seen : List Pos) (startPos : Pos) (count : Nat) : List Pos :=
  (List.range count).foldl
    (fun acc i => seenAddOne acc ⟨startPos.bunchID, startPos.innerIndex + i⟩) seen

/-- Modelled from the spec: the value store's content, a finite map from
position to character, represented as an association list.  `set` overwrites
the value when the position is already present. -/
def storeSet : List (Pos × Char) → Pos → Char → List (Pos × Char)
  | [], p, c => [(p, c)]
  | (q, d) :: rest, p, c =>
      if q = p then (p, c) :: rest else (q, d) :: storeSet rest p c

/-- Modelled from the spec: `Text.set(startPos, chars)` writes the run of
characters at the consecutive positions starting at `startPos`. -/
def storeSetRun (store : List (Pos × Char)) (startPos : Pos) (chars : List Char) :
    List (Pos × Char) :=
  chars.enum.foldl
    (fun st ic => storeSet st ⟨startPos.bunchID, startPos.innerIndex + ic.1⟩ ic.2)
    store

/-- Modelled from the spec: `Text.delete(pos)` removes the position's entry
from the value store (a no-op when absent). -/
def storeDelete : List (Pos × Char) → Pos → List (Pos × Char)
  | [], _ => []
  | (q, d) :: rest, p =>
      if q = p then storeDelete rest p else (q, d) :: storeDelete rest p

/-- Modelled from the spec: `Text.has(pos)`, the presence test of the value
store. -/
def storeHas (store : List (Pos × Char)) (p : Pos) : Bool :=
  store.any (fun e => decide (e.1 = p))

/-- Modelled from the spec: `Text.get(pos)`. -/
def storeGet (store : List (Pos × Char)) (p : Pos) : Option Char :=
  (store.find? (fun e => decide (e.1 = p))).map (fun e => e.2)

/-- An op-based message (`TextCrdtMessage`): either a `set` carrying the run's
start position, its characters and optionally the new bunch's metadata, or a
`delete` carrying a list of positions. -/
inductive Msg where
  | set (startPos : Pos) (chars : List Char) (meta : Option BunchMeta)
  | delete (poss : List Pos)
deriving DecidableEq, Repr

/-- The pending buffer: buckets of buffered messages keyed by the bunch id
they are waiting on (`pending: Map<string, Set<TextCrdtMessage>>`).  Buckets
keep insertion order, and adding a message already in a bucket is a no-op,
matching the JavaScript `Map`/`Set` semantics. -/
def Pending : Type := List (String × List Msg)

instance : DecidableEq Pending := by
  unfold Pending
  infer_instance

/-- `TextCrdt.addToPending(bunchID, message)`: append to the bucket for
`bunchID`, creating it if absent. -/
def addToPending : Pending → String → Msg → Pending
  | [], id, m => [(id, [m])]
  | (k, b) :: rest, id, m =>
      if k = id then (k, if m ∈ b then b else b ++ [m]) :: rest
      else (k, b) :: addToPending rest id m

/-- Look up the bucket for a bunch id (`pending.get(bunchID)`). -/
def pendingLookup : Pending → String → Option (List Msg)
  | [], _ => none
  | (k, b) :: rest, id => if k = id then some b else pendingLookup rest id

/-- Remove the bucket for a bunch id (`pending.delete(bunchID)`). -/
def pendingErase : Pending → String → Pending
  | [], _ => []
  | (k, b) :: rest, id =>
      if k = id then pendingErase rest id else (k, b) :: pendingErase rest id

/-- The whole replica state of a `TextCrdt`: the order service's registered
metas, the value store's content, the seen tracker and the pending buffer. -/
structure CrdtState where
  order : List BunchMeta
  store : List (Pos × Char)
  seen : List Pos
  pending : Pending
deriving DecidableEq

/-- A fresh replica (`new TextCrdt(...)`). -/
def initial : CrdtState :=
  { order := [], store := [], seen := [], pending := [] }

/-- One iteration of the `delete` branch of `TextCrdt.receive`: mark the
position seen unconditionally, then remove it from the value store only when
its bunch is registered and the store currently holds it. -/
def deleteStep (s : CrdtState) (p : Pos) : CrdtState :=
  let s1 : CrdtState := { s with seen := seenAddOne s.seen p }
  if knownID s1.order p.bunchID && storeHas s1.store p then
    { s1 with store := storeDelete s1.store p }
  else s1

/-- The `set` branch of `TextCrdt.receive`, parameterized by the function
`recv` used to reprocess messages unblocked from the pending buffer (in the
source this is the recursive call `this.receive(msg2)`).  Mirrors the source:
drop if `startPos` is seen; buffer under the parent id if the parent bunch is
unknown; otherwise register the meta, buffer under the bunch's own id if it is
somehow still unknown, and finally apply the run, mark it seen, and drain the
pending bucket keyed by the new bunch's id. -/
def receiveSetStep (recv : CrdtState → Msg → CrdtState) (s : CrdtState)
    (startPos : Pos) (chars : List Char) (mo : Option BunchMeta) : CrdtState :=
  if startPos ∈ s.seen then s
  else
    match mo with
    | some meta =>
        if knownID s.order meta.parentID = false then
          { s with pending :=
              addToPending s.pending meta.parentID (Msg.set startPos chars (some meta)) }
        else
          let s1 : CrdtState := { s with order := addMeta s.order meta }
          if knownID s1.order startPos.bunchID = false then
            { s1 with pending :=
                addToPending s1.pending startPos.bunchID (Msg.set startPos chars (some meta)) }
          else
            let s2 : CrdtState := { s1 with
              store := storeSetRun s1.store startPos chars,
              seen := seenAdd s1.seen startPos chars.length }
            match pendingLookup s2.pending meta.bunchID with
            | none => s2
            | some msgs =>
                msgs.foldl recv { s2 with pending := pendingErase s2.pending meta.bunchID }
    | none =>
        { s with
          store := storeSetRun s.store startPos chars,
          seen := seenAdd s.seen startPos chars.length }

/-- `TextCrdt.receive`, with an explicit fuel bounding the depth of the
unblocking cascade (the source recursion `for (const msg2 of unblocked)
this.receive(msg2)`).  The fuel decreases once per drained bucket level; the
wrapper `receive` supplies more fuel than any cascade can consume. -/
def receiveFuel : Nat → CrdtState → Msg → CrdtState
  | 0, s, _ => s
  | _ + 1, s, Msg.delete poss => poss.foldl deleteStep s
  | f + 1, s, Msg.set startPos chars mo =>
      receiveSetStep (receiveFuel f) s startPos chars mo

/-- Total number of messages sitting in the pending buffer. -/
def pendingTotal (pending : Pending) : Nat :=
  (pending.map (fun kb => kb.2.length)).sum

/-- Fuel that dominates the length of any unblocking cascade: every message
processed by the cascade was removed from the pending buffer, and a removed
message can be re-buffered at most once before its bunch becomes known. -/
def fuelBound (s : CrdtState) : Nat := 2 * pendingTotal s.pending + 2

/-- `TextCrdt.receive(message)`. -/
def receive (s : CrdtState) (m : Msg) : CrdtState :=
  receiveFuel (fuelBound s) s m

/-- Total order used to read the value store out "in position order".
Modelled from the spec (section 6): position comparison is provided by the
external order service; we use a fixed lexicographic order on
(bunch id, inner index), which agrees with the real order inside a single
bunch and is a deterministic function of the state, which is all the
claims about `slice()` consume. -/
def posLe (p q : Pos) : Bool :=
  if p.bunchID = q.bunchID then decide (p.innerIndex ≤ q.innerIndex)
  else decide (p.bunchID < q.bunchID)

/-- Insert into a `posLe`-sorted list. -/
def insertSorted (x : Pos) : List Pos → List Pos
  | [] => [x]
  | y :: rest => if posLe x y then x :: y :: rest else y :: insertSorted x rest

/-- Sort positions by `posLe` (insertion sort). -/
def sortPositions (l : List Pos) : List Pos := l.foldr insertSorted []

/-- The currently-present positions in position order
(`Text.positions()` / iteration order of the value store). -/
def presentSorted (s : CrdtState) : List Pos :=
  sortPositions (s.store.map (fun e => e.1))

/-- `TextCrdt.slice()` with default bounds (also `toString()`): the current
sequence of characters in position order. -/
def sliceAll (s : CrdtState) : List Char :=
  (presentSorted s).filterMap (storeGet s.store)

/-- Modelled from the spec: the external allocation
`allocate(index, store) -> (position, optionalNewBunchMeta)` (section 6).
We model the simplest conforming allocator: every insertion allocates a fresh
bunch (named after the number of registered bunches) under the root, and the
run starts at inner index 0.  The allocation strategy itself belongs to the
out-of-scope order service; the claims only need freshness. -/
def allocatePosition (order : List BunchMeta) : Pos × BunchMeta :=
  let id := "B" ++ toString order.length
  (⟨id, 0⟩, ⟨id, rootID⟩)

/-- `TextCrdt.insertAt(index, chars)`: allocate (registering the new bunch
locally and writing the run into the value store, as `Text.insertAt` does),
call `this.seen.add(pos)` — note: the source passes no count here — and emit
the `set` message.  Returns the new state and the emitted message. -/
def insertAt (s : CrdtState) (index : Nat) (chars : List Char) : CrdtState × Msg :=
  let pc := allocatePosition s.order
  let pos := pc.1
  let newMeta := pc.2
  let s1 : CrdtState := { s with
    order := addMeta s.order newMeta,
    store := storeSetRun s.store pos chars }
  let s2 : CrdtState := { s1 with seen := seenAddOne s1.seen pos }
  (s2, Msg.set pos chars (some newMeta))

/-- `TextCrdt.deleteAt(index, count)`: resolve the `count` present positions
starting at `index`, remove them from the value store, and emit the `delete`
message.  The source does not touch the seen tracker here. -/
def deleteAt (s : CrdtState) (index : Nat) (count : Nat) : CrdtState × Msg :=
  let poss := ((presentSorted s).drop index).take count
  ({ s with store := poss.foldl storeDelete s.store }, Msg.delete poss)

/-- `TextCrdtSavedState`: the three independently serialized parts. -/
structure SavedState where
  order : List BunchMeta
  store : List (Pos × Char)
  seen : List Pos
deriving DecidableEq

/-- `TextCrdt.save()`. -/
def save (s : CrdtState) : SavedState :=
  { order := s.order, store := s.store, seen := s.seen }

/-- One iteration of the merge loop of `TextCrdt.load` over the snapshot's
seen positions, acting on the (store, seen) pair. -/
def mergeStep (snap : SavedState) (acc : List (Pos × Char) × List Pos) (p : Pos) :
    List (Pos × Char) × List Pos :=
  if p ∈ acc.2 then
    -- We already know of pos.  If it is deleted in the other list, ensure it
    -- is deleted here too.
    if storeHas snap.store p then acc else (storeDelete acc.1 p, acc.2)
  else
    -- pos is new to us.  Copy its state from the other list.
    let st1 := match storeGet snap.store p with
      | some c => storeSet acc.1 p c
      | none => acc.1
    (st1, seenAddOne acc.2 p)

/-- `TextCrdt.load(savedState)`: the fast path directly assigns all three
parts when the local seen tracker is empty; otherwise the merge path unions
the order metadata and walks the snapshot's seen positions in position order.
The pending buffer is not read or written on either path. -/
def load (s : CrdtState) (snap : SavedState) : CrdtState :=
  if s.seen.isEmpty then
    { order := snap.order, store := snap.store, seen := snap.seen,
      pending := s.pending }
  else
    let order1 := snap.order.foldl addMeta s.order
    let merged := (sortPositions snap.seen).foldl (mergeStep snap) (s.store, s.seen)
    { order := order1, store := merged.1, seen := merged.2, pending := s.pending }

/-- `Text.has(pos)` as the external library actually behaves: it raises a
"Missing metadata" error when the position's bunch is not registered.
Modelled from the spec (sections 4.4 and 7): the receive path must guard this
call so that protocol-level anomalies never raise. -/
def textHasE (order : List BunchMeta) (store : List (Pos × Char)) (p : Pos) :
    Except String Bool :=
  if knownID order p.bunchID then Except.ok (storeHas store p)
  else Except.error "Missing metadata"

/-- The `delete` branch of `TextCrdt.receive` with the error-raising `has`
made explicit, exactly as the source guards it: mark seen, then only when the
bunch is registered consult `Text.has` and delete when present. -/
def deleteStepE (s : CrdtState) (p : Pos) : Except String CrdtState :=
  let s1 : CrdtState := { s with seen := seenAddOne s.seen p }
  if knownID s1.order p.bunchID then
    match textHasE s1.order s1.store p with
    | Except.error e => Except.error e
    | Except.ok b =>
        Except.ok (if b then { s1 with store := storeDelete s1.store p } else s1)
  else Except.ok s1

/-- Receiving a whole `Delete` message in the explicit-error model. -/
def receiveDeleteE (s : CrdtState) (poss : List Pos) : Except String CrdtState :=
  poss.foldl
    (fun acc p =>
      match acc with
      | Except.error e => Except.error e
      | Except.ok st => deleteStepE st p)
    (Except.ok s)

/-- The state right after a deliverable `set` run is applied (meta registered,
run written, run marked seen), before the pending bucket is drained. -/
def procState (r : CrdtState) (sp : Pos) (cs : List Char) (meta : BunchMeta) :
    CrdtState :=
  { r with
    order := addMeta r.order meta,
    store := storeSetRun r.store sp cs,
    seen := seenAdd r.seen sp cs.length }

/-- The `Set` message of a five-character run in a fresh bunch under the
root: what `insertAt(0, "abcde")` on a fresh replica emits. -/
def exSetMsg : Msg := Msg.set ⟨"B0", 0⟩ ['a', 'b', 'c', 'd', 'e'] (some ⟨"B0", rootID⟩)

/-- The `Delete` message for the middle position of that run: what
`deleteAt(2, 1)` then emits. -/
def exDelMsg : Msg := Msg.delete [⟨"B0", 2⟩]

/-- Snapshot of a replica that freshly inserted "ab": because of the
`insertAt` seen gap, its seen set lacks the second position. -/
def exSnapA : SavedState := save (insertAt initial 0 ['a', 'b']).1

/-- Snapshot of a replica that received the "ab" `Set` message and then a
`Delete` of the second position. -/
def exSnapB : SavedState :=
  save (receive (receive initial (insertAt initial 0 ['a', 'b']).2)
    (Msg.delete [⟨"B0", 1⟩]))

/-- One list extends another by appending (used to state that the order and
seen components only ever grow). -/
def Ext {α : Type} (l l' : List α) : Prop := ∃ t, l' = l ++ t

/-! ### Basic lemmas about the modelled collaborators -/

theorem Ext.refl {α : Type} (l : List α) : Ext l l := ⟨[], by simp⟩

theorem Ext.trans {α : Type} {a b c : List α} (h1 : Ext a b) (h2 : Ext b c) :
    Ext a c := by
  obtain ⟨t, rfl⟩ := h1
  obtain ⟨u, rfl⟩ := h2
  exact ⟨t ++ u, by simp⟩

theorem Ext.mem {α : Type} {a b : List α} (h : Ext a b) {x : α} (hx : x ∈ a) :
    x ∈ b := by
  obtain ⟨t, rfl⟩ := h
  exact List.mem_append_left t hx

theorem foldl_preserve {σ α : Type} {g : σ → α → σ} {P : σ → Prop}
    (h : ∀ st a, P st → P (g st a)) :
    ∀ (l : List α) (st : σ), P st → P (l.foldl g st) := by
  intro l
  induction l with
  | nil => intro st hst; exact hst
  | cons a rest ih => intro st hst; exact ih (g st a) (h st a hst)

theorem seenAddOne_ext (l : List Pos) (p : Pos) : Ext l (seenAddOne l p) := by
  unfold seenAddOne
  split
  · exact Ext.refl l
  · exact ⟨[p], rfl⟩

theorem mem_seenAddOne_self (l : List Pos) (p : Pos) : p ∈ seenAddOne l p := by
  unfold seenAddOne
  split
  · assumption
  · simp

theorem seenAddOne_of_mem {l : List Pos} {p : Pos} (h : p ∈ l) :
    seenAddOne l p = l := by
  unfold seenAddOne
  exact if_pos h

theorem seenAdd_ext (l : List Pos) (sp : Pos) (n : Nat) : Ext l (seenAdd l sp n) := by
  unfold seenAdd
  exact foldl_preserve
    (fun st i hst => Ext.trans hst (seenAddOne_ext st _)) (List.range n) l (Ext.refl l)

theorem mem_seenAdd_of_lt (l : List Pos) (sp : Pos) {i n : Nat} (h : i < n) :
    (⟨sp.bunchID, sp.innerIndex + i⟩ : Pos) ∈ seenAdd l sp n := by
  induction n with
  | zero => omega
  | succ k ih =>
      unfold seenAdd
      rw [List.range_succ, List.foldl_append]
      rcases Nat.lt_or_ge i k with hik | hik
      · exact (seenAddOne_ext _ _).mem (by unfold seenAdd at ih; exact ih hik)
      · have : i = k := by omega
        subst this
        exact mem_seenAddOne_self _ _

theorem mem_seenAdd_self (l : List Pos) (sp : Pos) {n : Nat} (h : 0 < n) :
    sp ∈ seenAdd l sp n := by
  have h0 := mem_seenAdd_of_lt l sp h
  have he : (⟨sp.bunchID, sp.innerIndex + 0⟩ : Pos) = sp := by
    cases sp
    simp
  rwa [he] at h0

theorem mem_seenAdd_of_mem {l : List Pos} {p : Pos} (h : p ∈ l) (sp : Pos) (n : Nat) :
    p ∈ seenAdd l sp n :=
  (seenAdd_ext l sp n).mem h

theorem seenAdd_zero (l : List Pos) (sp : Pos) : seenAdd l sp 0 = l := rfl

theorem storeSetRun_nil (st : List (Pos × Char)) (sp : Pos) :
    storeSetRun st sp [] = st := rfl

theorem mem_of_mem_storeDelete {st : List (Pos × Char)} {p : Pos}
    {e : Pos × Char} (h : e ∈ storeDelete st p) : e ∈ st := by
  induction st with
  | nil => simpa [storeDelete] using h
  | cons a rest ih =>
      unfold storeDelete at h
      split at h
      · exact List.mem_cons_of_mem a (ih h)
      · rcases List.mem_cons.mp h with h | h
        · exact h ▸ List.mem_cons_self a rest
        · exact List.mem_cons_of_mem a (ih h)

theorem storeHas_iff {st : List (Pos × Char)} {p : Pos} :
    storeHas st p = true ↔ ∃ e ∈ st, e.1 = p := by
  unfold storeHas
  simp [List.any_eq_true]

theorem storeHas_storeDelete_self (st : List (Pos × Char)) (p : Pos) :
    storeHas (storeDelete st p) p = false := by
  induction st with
  | nil => rfl
  | cons a rest ih =>
      unfold storeDelete
      split
      · exact ih
      · rename_i hne
        unfold storeHas
        simp only [List.any_cons]
        unfold storeHas at ih
        simp [ih, hne]

theorem storeHas_of_storeHas_delete {st : List (Pos × Char)} {p q : Pos}
    (h : storeHas (storeDelete st q) p = true) : storeHas st p = true := by
  rw [storeHas_iff] at h ⊢
  obtain ⟨e, he, hep⟩ := h
  exact ⟨e, mem_of_mem_storeDelete he, hep⟩

theorem knownID_append (o t : List BunchMeta) (id : String) :
    knownID (o ++ t) id =
      (knownID o id || t.any (fun m => decide (m.bunchID = id))) := by
  unfold knownID
  rw [List.any_append]
  cases hd : decide (id = rootID) <;> simp

theorem knownID_ext {o o' : List BunchMeta} (h : Ext o o') {id : String}
    (hk : knownID o id = true) : knownID o' id = true := by
  obtain ⟨t, rfl⟩ := h
  rw [knownID_append, hk]
  rfl

theorem addMeta_ext (o : List BunchMeta) (m : BunchMeta) : Ext o (addMeta o m) := by
  unfold addMeta
  split
  · exact Ext.refl o
  · exact ⟨[m], rfl⟩

theorem knownID_addMeta_self (o : List BunchMeta) (m : BunchMeta) :
    knownID (addMeta o m) m.bunchID = true := by
  unfold addMeta
  split
  · assumption
  · rw [knownID_append]
    simp

theorem addMeta_of_known {o : List BunchMeta} {m : BunchMeta}
    (h : knownID o m.bunchID = true) : addMeta o m = o := by
  unfold addMeta
  exact if_pos h

theorem addToPending_nil (id : String) (m : Msg) :
    addToPending [] id m = [(id, [m])] := rfl

theorem addToPending_cons (k : String) (b : List Msg) (rest : Pending)
    (id : String) (m : Msg) :
    addToPending ((k, b) :: rest) id m =
      if k = id then (k, if m ∈ b then b else b ++ [m]) :: rest
      else (k, b) :: addToPending rest id m := rfl

theorem pendingLookup_nil (K : String) : pendingLookup [] K = none := rfl

theorem pendingLookup_cons (k : String) (b : List Msg) (rest : Pending)
    (K : String) :
    pendingLookup ((k, b) :: rest) K =
      if k = K then some b else pendingLookup rest K := rfl

theorem pendingErase_nil (id : String) : pendingErase [] id = ([] : Pending) := rfl

theorem pendingErase_cons (k : String) (b : List Msg) (rest : Pending)
    (id : String) :
    pendingErase ((k, b) :: rest) id =
      if k = id then pendingErase rest id
      else (k, b) :: pendingErase rest id := rfl

theorem pendingLookup_addToPending_other (pend : Pending) {id K : String}
    (m : Msg) (h : id ≠ K) :
    pendingLookup (addToPending pend id m) K = pendingLookup pend K := by
  induction pend with
  | nil => simp [addToPending_nil, pendingLookup_cons, pendingLookup_nil, h]
  | cons a rest ih =>
      obtain ⟨k, b⟩ := a
      rw [addToPending_cons]
      by_cases hk : k = id
      · subst hk
        have hkK : ¬ k = K := h
        simp [pendingLookup_cons, hkK]
      · by_cases hkK : k = K
        · have hKid : ¬ K = id := by
            intro he
            exact hk (by rw [hkK, he])
          simp [hk, pendingLookup_cons, hkK, hKid]
        · simp [hk, pendingLookup_cons, hkK, ih]

theorem pendingLookup_pendingErase (pend : Pending) (id K : String) :
    pendingLookup (pendingErase pend id) K =
      if K = id then none else pendingLookup pend K := by
  induction pend with
  | nil => simp [pendingErase_nil, pendingLookup_nil]
  | cons a rest ih =>
      obtain ⟨k, b⟩ := a
      rw [pendingErase_cons]
      by_cases hk : k = id
      · rw [if_pos hk, ih]
        by_cases hK : K = id
        · simp [hK]
        · have hkK : ¬ k = K := by
            intro he
            exact hK (by rw [← he, hk])
          simp [hK, pendingLookup_cons, hkK]
      · rw [if_neg hk, pendingLookup_cons]
        by_cases hkK : k = K
        · have hKid : ¬ K = id := by
            intro he
            exact hk (by rw [hkK, he])
          simp [hkK, hKid, pendingLookup_cons]
        · simp [hkK, ih, pendingLookup_cons]

theorem addToPending_addToPending (pend : Pending) (id : String) (m : Msg) :
    addToPending (addToPending pend id m) id m = addToPending pend id m := by
  induction pend with
  | nil => simp [addToPending_nil, addToPending_cons]
  | cons a rest ih =>
      obtain ⟨k, b⟩ := a
      rw [addToPending_cons]
      by_cases hk : k = id
      · rw [if_pos hk, addToPending_cons, if_pos hk]
        by_cases hm : m ∈ b
        · simp [hm]
        · simp [hm]
      · rw [if_neg hk, addToPending_cons, if_neg hk, ih]

/-! ### Branch equations for the `set` path of `receive` -/

theorem rss_seen (g : CrdtState → Msg → CrdtState) (r : CrdtState) (sp : Pos)
    (cs : List Char) (mo : Option BunchMeta) (h : sp ∈ r.seen) :
    receiveSetStep g r sp cs mo = r := by
  unfold receiveSetStep
  exact if_pos h

theorem rss_nometa (g : CrdtState → Msg → CrdtState) (r : CrdtState) (sp : Pos)
    (cs : List Char) (h : sp ∉ r.seen) :
    receiveSetStep g r sp cs none =
      { r with store := storeSetRun r.store sp cs,
               seen := seenAdd r.seen sp cs.length } := by
  unfold receiveSetStep
  rw [if_neg h]

theorem rss_parent_unknown (g : CrdtState → Msg → CrdtState) (r : CrdtState)
    (sp : Pos) (cs : List Char) (meta : BunchMeta) (h1 : sp ∉ r.seen)
    (h2 : knownID r.order meta.parentID = false) :
    receiveSetStep g r sp cs (some meta) =
      { r with pending :=
          addToPending r.pending meta.parentID (Msg.set sp cs (some meta)) } := by
  unfold receiveSetStep
  rw [if_neg h1]
  dsimp only
  rw [if_pos h2]

theorem rss_bunch_unknown (g : CrdtState → Msg → CrdtState) (r : CrdtState)
    (sp : Pos) (cs : List Char) (meta : BunchMeta) (h1 : sp ∉ r.seen)
    (h2 : knownID r.order meta.parentID = true)
    (h3 : knownID (addMeta r.order meta) sp.bunchID = false) :
    receiveSetStep g r sp cs (some meta) =
      { r with order := addMeta r.order meta,
               pending :=
          addToPending r.pending sp.bunchID (Msg.set sp cs (some meta)) } := by
  unfold receiveSetStep
  rw [if_neg h1]
  dsimp only
  rw [if_neg (by simp [h2]), if_pos h3]

theorem rss_process (g : CrdtState → Msg → CrdtState) (r : CrdtState)
    (sp : Pos) (cs : List Char) (meta : BunchMeta) (h1 : sp ∉ r.seen)
    (h2 : knownID r.order meta.parentID = true)
    (h3 : knownID (addMeta r.order meta) sp.bunchID = true) :
    receiveSetStep g r sp cs (some meta) =
      match pendingLookup r.pending meta.bunchID with
      | none => procState r sp cs meta
      | some msgs =>
          msgs.foldl g
            { procState r sp cs meta with
              pending := pendingErase r.pending meta.bunchID } := by
  unfold receiveSetStep
  rw [if_neg h1]
  dsimp only
  rw [if_neg (by simp [h2]), if_neg (by simp [h3])]
  rfl

/-! ### Lemmas about the `delete` path of `receive` -/

theorem deleteStep_order (s : CrdtState) (p : Pos) :
    (deleteStep s p).order = s.order := by
  unfold deleteStep
  dsimp only
  split <;> rfl

theorem deleteStep_pending (s : CrdtState) (p : Pos) :
    (deleteStep s p).pending = s.pending := by
  unfold deleteStep
  dsimp only
  split <;> rfl

theorem deleteStep_seen (s : CrdtState) (p : Pos) :
    (deleteStep s p).seen = seenAddOne s.seen p := by
  unfold deleteStep
  dsimp only
  split <;> rfl

theorem deleteStep_store_shrink {s : CrdtState} {p q : Pos}
    (h : storeHas (deleteStep s p).store q = true) : storeHas s.store q = true := by
  unfold deleteStep at h
  dsimp only at h
  split at h
  · exact storeHas_of_storeHas_delete h
  · exact h

theorem deleteStep_id {s : CrdtState} {p : Pos} (h1 : p ∈ s.seen)
    (h2 : storeHas s.store p = false ∨ knownID s.order p.bunchID = false) :
    deleteStep s p = s := by
  unfold deleteStep
  dsimp only
  rw [seenAddOne_of_mem h1]
  rcases h2 with h2 | h2 <;> simp [h2]

theorem foldl_deleteStep_order (s : CrdtState) (poss : List Pos) :
    (poss.foldl deleteStep s).order = s.order := by
  refine foldl_preserve (g := deleteStep) (P := fun st => st.order = s.order)
    ?_ poss s rfl
  intro st p hst
  rw [deleteStep_order, hst]

theorem foldl_deleteStep_pending (s : CrdtState) (poss : List Pos) :
    (poss.foldl deleteStep s).pending = s.pending := by
  refine foldl_preserve (g := deleteStep) (P := fun st => st.pending = s.pending)
    ?_ poss s rfl
  intro st p hst
  rw [deleteStep_pending, hst]

theorem foldl_deleteStep_seen_ext (s : CrdtState) (poss : List Pos) :
    Ext s.seen (poss.foldl deleteStep s).seen := by
  refine foldl_preserve (g := deleteStep) (P := fun st => Ext s.seen st.seen)
    ?_ poss s (Ext.refl _)
  intro st p hst
  rw [deleteStep_seen]
  exact hst.trans (seenAddOne_ext _ _)

theorem foldl_deleteStep_store_shrink {s : CrdtState} {q : Pos} (poss : List Pos)
    (h : storeHas ((poss.foldl deleteStep s).store) q = true) :
    storeHas s.store q = true := by
  refine foldl_preserve (g := deleteStep)
    (P := fun st => storeHas st.store q = true → storeHas s.store q = true)
    ?_ poss s (fun hx => hx) h
  intro st p hst hq
  exact hst (deleteStep_store_shrink hq)

theorem foldl_deleteStep_invariant (s : CrdtState) (poss : List Pos) :
    ∀ p ∈ poss,
      p ∈ (poss.foldl deleteStep s).seen ∧
        (storeHas (poss.foldl deleteStep s).store p = false ∨
          knownID (poss.foldl deleteStep s).order p.bunchID = false) := by
  induction poss generalizing s with
  | nil => intro p hp; cases hp
  | cons q rest ih =>
      intro p hp
      rw [List.foldl_cons]
      rcases List.mem_cons.mp hp with hpq | hpr
      · subst hpq
        constructor
        · refine (foldl_deleteStep_seen_ext (deleteStep s p) rest).mem ?_
          rw [deleteStep_seen]
          exact mem_seenAddOne_self _ _
        · by_cases hknown : knownID s.order p.bunchID = true
          · -- the bunch is registered: after this step the store cannot hold p
            have hdel : storeHas (deleteStep s p).store p = false := by
              unfold deleteStep
              dsimp only
              split
              · exact storeHas_storeDelete_self _ _
              · rename_i hcond
                rw [hknown] at hcond
                simp only [Bool.true_and] at hcond
                simpa using hcond
            left
            cases hfold : storeHas ((rest.foldl deleteStep (deleteStep s p)).store) p with
            | false => rfl
            | true =>
                have := foldl_deleteStep_store_shrink rest hfold
                rw [this] at hdel
                cases hdel
          · right
            rw [foldl_deleteStep_order, deleteStep_order]
            simpa using hknown
      · exact ih (deleteStep s q) p hpr

theorem foldl_deleteStep_id (poss : List Pos) :
    ∀ s : CrdtState,
      (∀ p ∈ poss,
        p ∈ s.seen ∧
          (storeHas s.store p = false ∨ knownID s.order p.bunchID = false)) →
      poss.foldl deleteStep s = s := by
  induction poss with
  | nil => intro s _; rfl
  | cons q rest ih =>
      intro s h
      rw [List.foldl_cons,
        deleteStep_id (h q (List.mem_cons_self q rest)).1
          (h q (List.mem_cons_self q rest)).2]
      exact ih s (fun p hp => h p (List.mem_cons_of_mem q hp))

theorem receiveFuel_succ_set (f : Nat) (s : CrdtState) (sp : Pos)
    (cs : List Char) (mo : Option BunchMeta) :
    receiveFuel (f + 1) s (Msg.set sp cs mo) = receiveSetStep (receiveFuel f) s sp cs mo :=
  rfl

theorem receiveFuel_succ_del (f : Nat) (s : CrdtState) (poss : List Pos) :
    receiveFuel (f + 1) s (Msg.delete poss) = poss.foldl deleteStep s :=
  rfl

/-! ### The order and seen components only grow under `receive`; a known
bunch with no pending bucket stays that way. -/

theorem receiveSetStep_ext (g : CrdtState → Msg → CrdtState)
    (hg : ∀ st m, Ext st.order (g st m).order ∧ Ext st.seen (g st m).seen)
    (s : CrdtState) (sp : Pos) (cs : List Char) (mo : Option BunchMeta) :
    Ext s.order (receiveSetStep g s sp cs mo).order ∧
      Ext s.seen (receiveSetStep g s sp cs mo).seen := by
  by_cases h1 : sp ∈ s.seen
  · rw [rss_seen g s sp cs mo h1]
    exact ⟨Ext.refl _, Ext.refl _⟩
  · cases mo with
    | none =>
        rw [rss_nometa g s sp cs h1]
        exact ⟨Ext.refl _, seenAdd_ext _ _ _⟩
    | some meta =>
        by_cases h2 : knownID s.order meta.parentID = false
        · rw [rss_parent_unknown g s sp cs meta h1 h2]
          exact ⟨Ext.refl _, Ext.refl _⟩
        · have h2' : knownID s.order meta.parentID = true := by
            cases hx : knownID s.order meta.parentID
            · exact absurd hx h2
            · rfl
          by_cases h3 : knownID (addMeta s.order meta) sp.bunchID = false
          · rw [rss_bunch_unknown g s sp cs meta h1 h2' h3]
            exact ⟨addMeta_ext _ _, Ext.refl _⟩
          · have h3' : knownID (addMeta s.order meta) sp.bunchID = true := by
              cases hx : knownID (addMeta s.order meta) sp.bunchID
              · exact absurd hx h3
              · rfl
            rw [rss_process g s sp cs meta h1 h2' h3']
            cases hLk : pendingLookup s.pending meta.bunchID with
            | none => exact ⟨addMeta_ext _ _, seenAdd_ext _ _ _⟩
            | some msgs =>
                refine foldl_preserve
                  (P := fun (st : CrdtState) => Ext s.order st.order ∧ Ext s.seen st.seen)
                  ?_ msgs _ ⟨addMeta_ext _ _, seenAdd_ext _ _ _⟩
                intro st m hst
                exact ⟨hst.1.trans (hg st m).1, hst.2.trans (hg st m).2⟩

theorem receiveFuel_ext :
    ∀ (f : Nat) (s : CrdtState) (m : Msg),
      Ext s.order (receiveFuel f s m).order ∧ Ext s.seen (receiveFuel f s m).seen := by
  intro f
  induction f with
  | zero => intro s m; exact ⟨Ext.refl _, Ext.refl _⟩
  | succ f ih =>
      intro s m
      cases m with
      | delete poss =>
          rw [receiveFuel_succ_del]
          constructor
          · rw [foldl_deleteStep_order]
            exact Ext.refl _
          · exact foldl_deleteStep_seen_ext _ _
      | set sp cs mo =>
          rw [receiveFuel_succ_set]
          exact receiveSetStep_ext _ ih s sp cs mo

theorem receiveSetStep_noBucket (g : CrdtState → Msg → CrdtState)
    (hg : ∀ st m K, knownID st.order K = true → pendingLookup st.pending K = none →
      knownID (g st m).order K = true ∧ pendingLookup (g st m).pending K = none)
    (s : CrdtState) (sp : Pos) (cs : List Char) (mo : Option BunchMeta)
    (K : String) (hK : knownID s.order K = true)
    (hP : pendingLookup s.pending K = none) :
    knownID (receiveSetStep g s sp cs mo).order K = true ∧
      pendingLookup (receiveSetStep g s sp cs mo).pending K = none := by
  by_cases h1 : sp ∈ s.seen
  · rw [rss_seen g s sp cs mo h1]
    exact ⟨hK, hP⟩
  · cases mo with
    | none =>
        rw [rss_nometa g s sp cs h1]
        exact ⟨hK, hP⟩
    | some meta =>
        by_cases h2 : knownID s.order meta.parentID = false
        · rw [rss_parent_unknown g s sp cs meta h1 h2]
          have hne : meta.parentID ≠ K := by
            intro he
            rw [he, hK] at h2
            cases h2
          exact ⟨hK, by
            show pendingLookup (addToPending s.pending meta.parentID _) K = none
            rw [pendingLookup_addToPending_other _ _ hne]
            exact hP⟩
        · have h2' : knownID s.order meta.parentID = true := by
            cases hx : knownID s.order meta.parentID
            · exact absurd hx h2
            · rfl
          have hK1 : knownID (addMeta s.order meta) K = true :=
            knownID_ext (addMeta_ext _ _) hK
          by_cases h3 : knownID (addMeta s.order meta) sp.bunchID = false
          · rw [rss_bunch_unknown g s sp cs meta h1 h2' h3]
            have hne : sp.bunchID ≠ K := by
              intro he
              rw [he, hK1] at h3
              cases h3
            exact ⟨hK1, by
              show pendingLookup (addToPending s.pending sp.bunchID _) K = none
              rw [pendingLookup_addToPending_other _ _ hne]
              exact hP⟩
          · have h3' : knownID (addMeta s.order meta) sp.bunchID = true := by
              cases hx : knownID (addMeta s.order meta) sp.bunchID
              · exact absurd hx h3
              · rfl
            rw [rss_process g s sp cs meta h1 h2' h3']
            cases hLk : pendingLookup s.pending meta.bunchID with
            | none => exact ⟨hK1, hP⟩
            | some msgs =>
                refine foldl_preserve
                  (P := fun (st : CrdtState) => knownID st.order K = true ∧
                    pendingLookup st.pending K = none)
                  ?_ msgs _ ?_
                · intro st m hst
                  exact hg st m K hst.1 hst.2
                · refine ⟨hK1, ?_⟩
                  show pendingLookup (pendingErase s.pending meta.bunchID) K = none
                  rw [pendingLookup_pendingErase]
                  by_cases hKb : K = meta.bunchID
                  · simp [hKb]
                  · simp [hKb, hP]

theorem receiveFuel_noBucket :
    ∀ (f : Nat) (s : CrdtState) (m : Msg) (K : String),
      knownID s.order K = true → pendingLookup s.pending K = none →
      knownID (receiveFuel f s m).order K = true ∧
        pendingLookup (receiveFuel f s m).pending K = none := by
  intro f
  induction f with
  | zero => intro s m K hK hP; exact ⟨hK, hP⟩
  | succ f ih =>
      intro s m K hK hP
      cases m with
      | delete poss =>
          rw [receiveFuel_succ_del]
          rw [foldl_deleteStep_order, foldl_deleteStep_pending]
          exact ⟨hK, hP⟩
      | set sp cs mo =>
          rw [receiveFuel_succ_set]
          exact receiveSetStep_noBucket _ (fun st m K => ih st m K) s sp cs mo K hK hP

theorem receive_set_def (s : CrdtState) (sp : Pos) (cs : List Char)
    (mo : Option BunchMeta) :
    receive s (Msg.set sp cs mo) =
      receiveSetStep (receiveFuel (2 * pendingTotal s.pending + 1)) s sp cs mo :=
  rfl

theorem receive_del_def (s : CrdtState) (poss : List Pos) :
    receive s (Msg.delete poss) = poss.foldl deleteStep s :=
  rfl

/-! ### Claim theorems: frame effect of buffering, totality of delete,
monotonicity of the seen set -/

/-- C7: buffering mutates nothing but the pending buffer.  For every replica
state and `Set` message whose `meta.parentID` is not registered (and whose
start position is unseen), `receive` adds the message to the pending bucket
keyed by the parent id and leaves the value store, the seen set and the
registered order metadata unchanged. -/
theorem buffer_frame_effect (s : CrdtState) (startPos : Pos) (chars : List Char)
    (meta : BunchMeta) (h1 : startPos ∉ s.seen)
    (h2 : knownID s.order meta.parentID = false) :
    (receive s (Msg.set startPos chars (some meta))).order = s.order ∧
    (receive s (Msg.set startPos chars (some meta))).store = s.store ∧
    (receive s (Msg.set startPos chars (some meta))).seen = s.seen ∧
    (receive s (Msg.set startPos chars (some meta))).pending =
      addToPending s.pending meta.parentID (Msg.set startPos chars (some meta)) := by
  rw [receive_set_def, rss_parent_unknown _ _ _ _ _ h1 h2]
  exact ⟨rfl, rfl, rfl, rfl⟩

theorem buffer_frame_effect_witness :
    ((⟨"B1", 0⟩ : Pos) ∉ initial.seen) ∧
    knownID initial.order "B7" = false ∧
    ((receive initial (Msg.set ⟨"B1", 0⟩ ['x'] (some ⟨"B1", "B7"⟩))).order =
        initial.order ∧
      (receive initial (Msg.set ⟨"B1", 0⟩ ['x'] (some ⟨"B1", "B7"⟩))).store =
        initial.store ∧
      (receive initial (Msg.set ⟨"B1", 0⟩ ['x'] (some ⟨"B1", "B7"⟩))).seen =
        initial.seen ∧
      (receive initial (Msg.set ⟨"B1", 0⟩ ['x'] (some ⟨"B1", "B7"⟩))).pending =
        addToPending initial.pending "B7" (Msg.set ⟨"B1", 0⟩ ['x'] (some ⟨"B1", "B7"⟩))) :=
  ⟨by decide, by decide,
    buffer_frame_effect initial ⟨"B1", 0⟩ ['x'] ⟨"B1", "B7"⟩ (by decide) (by decide)⟩

theorem deleteStepE_ok (st : CrdtState) (p : Pos) :
    deleteStepE st p = Except.ok (deleteStep st p) := by
  by_cases h : knownID st.order p.bunchID = true <;>
    cases hs : storeHas st.store p <;>
      simp [deleteStepE, deleteStep, textHasE, h, hs]

theorem receiveDeleteE_ok (poss : List Pos) :
    ∀ s : CrdtState, receiveDeleteE s poss = Except.ok (poss.foldl deleteStep s) := by
  induction poss with
  | nil => intro s; rfl
  | cons p rest ih =>
      intro s
      have hstep : receiveDeleteE s (p :: rest) =
          rest.foldl
            (fun acc q =>
              match acc with
              | Except.error e => Except.error e
              | Except.ok st => deleteStepE st q)
            (deleteStepE s p) := by
        unfold receiveDeleteE
        rw [List.foldl_cons]
      rw [hstep, deleteStepE_ok]
      have : rest.foldl
          (fun acc q =>
            match acc with
            | Except.error e => Except.error e
            | Except.ok st => deleteStepE st q)
          (Except.ok (deleteStep s p)) = receiveDeleteE (deleteStep s p) rest := rfl
      rw [this, ih, List.foldl_cons]

/-- C8: receiving a `Delete` message never throws, even when the bunch
metadata of some positions is entirely unknown: in the model where `Text.has`
raises on an unregistered bunch (`deleteStepE` / `receiveDeleteE`, mirroring
the source's guard), the computation always returns `ok` and agrees with the
total semantics of `receive`, and every listed position ends up marked seen
unconditionally.  Removal happens exactly under the source's guard (bunch
registered and store holds the position), which is what `deleteStep`
evaluates. -/
theorem receive_delete_total (s : CrdtState) (poss : List Pos) :
    receiveDeleteE s poss = Except.ok (receive s (Msg.delete poss)) ∧
    ∀ p ∈ poss, p ∈ (receive s (Msg.delete poss)).seen := by
  rw [receive_del_def]
  exact ⟨receiveDeleteE_ok poss s,
    fun p hp => (foldl_deleteStep_invariant s poss p hp).1⟩

theorem receive_delete_total_witness :
    receiveDeleteE initial [⟨"B0", 0⟩] =
      Except.ok (receive initial (Msg.delete [⟨"B0", 0⟩])) ∧
    (⟨"B0", 0⟩ : Pos) ∈ (receive initial (Msg.delete [⟨"B0", 0⟩])).seen :=
  ⟨(receive_delete_total initial [⟨"B0", 0⟩]).1,
    (receive_delete_total initial [⟨"B0", 0⟩]).2 ⟨"B0", 0⟩ (by decide)⟩

/-- C9: the seen set never shrinks.  For every position already seen, each
public operation (insertAt, deleteAt, receive, save, load) leaves it seen:
insertAt and the receive paths only add to the seen set, deleteAt and save do
not touch it, the merge path of load only adds, and the direct-assignment
fast path of load requires the seen set to be empty, so it cannot drop a
seen position. -/
theorem seen_monotone (s : CrdtState) (p : Pos) (h : p ∈ s.seen) :
    (∀ i cs, p ∈ ((insertAt s i cs).1).seen) ∧
    (∀ i c, p ∈ ((deleteAt s i c).1).seen) ∧
    (∀ m, p ∈ (receive s m).seen) ∧
    (save s).seen = s.seen ∧
    (∀ snap, p ∈ (load s snap).seen) := by
  refine ⟨?_, ?_, ?_, rfl, ?_⟩
  · intro i cs
    exact (seenAddOne_ext s.seen (allocatePosition s.order).1).mem h
  · intro i c
    exact h
  · intro m
    exact ((receiveFuel_ext (fuelBound s) s m).2).mem h
  · intro snap
    unfold load
    split
    · rename_i hempty
      exfalso
      rw [List.isEmpty_iff] at hempty
      rw [hempty] at h
      cases h
    · dsimp only
      refine foldl_preserve (g := mergeStep snap)
        (P := fun acc => p ∈ acc.2) ?_ _ _ h
      intro acc q hacc
      unfold mergeStep
      dsimp only
      split
      · split
        · exact hacc
        · exact hacc
      · exact (seenAddOne_ext _ _).mem hacc

theorem seen_monotone_witness :
    (⟨"A", 0⟩ : Pos) ∈
      (receive (CrdtState.mk [] [] [⟨"A", 0⟩] []) (Msg.delete [])).seen :=
  (seen_monotone (CrdtState.mk [] [] [⟨"A", 0⟩] []) ⟨"A", 0⟩ (by decide)).2.2.1
    (Msg.delete [])

/-! ### Idempotence of receive -/

/-- C5: receiving the same message twice in a row leaves the replica exactly
as after receiving it once — value store, seen set, pending buffer and order
metadata alike.  Case analysis on the branch the first `receive` takes: a
dropped or buffered message leaves the second delivery in the same branch
(bucket insertion is set-semantics deduplicated), a processed nonempty `set`
marks its start position seen so the second delivery is dropped, an empty
`set` run reapplies as no-ops with nothing left in its pending bucket, and a
`delete` leaves every listed position seen and deletable-no-further. -/
theorem receive_idempotent (s : CrdtState) (m : Msg) :
    receive (receive s m) m = receive s m := by
  cases m with
  | delete poss =>
      rw [receive_del_def, receive_del_def]
      exact foldl_deleteStep_id poss _ (foldl_deleteStep_invariant s poss)
  | set sp cs mo =>
      rw [receive_set_def s sp cs mo]
      by_cases h1 : sp ∈ s.seen
      · rw [rss_seen _ s sp cs mo h1, receive_set_def]
        exact rss_seen _ s sp cs mo h1
      · cases mo with
        | none =>
            by_cases hcs : cs = []
            · subst hcs
              have hid : ∀ g : CrdtState → Msg → CrdtState,
                  receiveSetStep g s sp [] none = s := fun g => rss_nometa g s sp [] h1
              rw [hid, receive_set_def]
              exact hid _
            · rw [rss_nometa _ s sp cs h1, receive_set_def]
              exact rss_seen _ _ sp cs none
                (mem_seenAdd_self s.seen sp (List.length_pos.mpr hcs))
        | some meta =>
            by_cases h2 : knownID s.order meta.parentID = false
            · rw [rss_parent_unknown _ s sp cs meta h1 h2, receive_set_def]
              refine (rss_parent_unknown _
                  (CrdtState.mk s.order s.store s.seen
                    (addToPending s.pending meta.parentID (Msg.set sp cs (some meta))))
                  sp cs meta h1 h2).trans ?_
              show CrdtState.mk s.order s.store s.seen
                  (addToPending
                    (addToPending s.pending meta.parentID (Msg.set sp cs (some meta)))
                    meta.parentID (Msg.set sp cs (some meta))) =
                CrdtState.mk s.order s.store s.seen
                  (addToPending s.pending meta.parentID (Msg.set sp cs (some meta)))
              rw [addToPending_addToPending]
            · have h2' : knownID s.order meta.parentID = true := by
                cases hx : knownID s.order meta.parentID
                · exact absurd hx h2
                · rfl
              by_cases h3 : knownID (addMeta s.order meta) sp.bunchID = false
              · rw [rss_bunch_unknown _ s sp cs meta h1 h2' h3, receive_set_def]
                have h2r : knownID (addMeta s.order meta) meta.parentID = true :=
                  knownID_ext (addMeta_ext _ _) h2'
                have hAdd : addMeta (addMeta s.order meta) meta = addMeta s.order meta :=
                  addMeta_of_known (knownID_addMeta_self s.order meta)
                have h3r : knownID (addMeta (addMeta s.order meta) meta) sp.bunchID = false := by
                  rw [hAdd]
                  exact h3
                refine (rss_bunch_unknown _
                    (CrdtState.mk (addMeta s.order meta) s.store s.seen
                      (addToPending s.pending sp.bunchID (Msg.set sp cs (some meta))))
                    sp cs meta h1 h2r h3r).trans ?_
                show CrdtState.mk (addMeta (addMeta s.order meta) meta) s.store s.seen
                    (addToPending
                      (addToPending s.pending sp.bunchID (Msg.set sp cs (some meta)))
                      sp.bunchID (Msg.set sp cs (some meta))) =
                  CrdtState.mk (addMeta s.order meta) s.store s.seen
                    (addToPending s.pending sp.bunchID (Msg.set sp cs (some meta)))
                rw [hAdd, addToPending_addToPending]
              · have h3' : knownID (addMeta s.order meta) sp.bunchID = true := by
                  cases hx : knownID (addMeta s.order meta) sp.bunchID
                  · exact absurd hx h3
                  · rfl
                rw [rss_process _ s sp cs meta h1 h2' h3']
                -- r is the state after processing and draining; establish its
                -- invariants, uniformly over both drain outcomes.
                have hmain : ∀ r : CrdtState,
                    Ext (addMeta s.order meta) r.order →
                    Ext (seenAdd s.seen sp cs.length) r.seen →
                    knownID r.order meta.bunchID = true →
                    pendingLookup r.pending meta.bunchID = none →
                    receive r (Msg.set sp cs (some meta)) = r := by
                  intro r hOrd hSeen hKb hPb
                  rw [receive_set_def]
                  by_cases hseenr : sp ∈ r.seen
                  · exact rss_seen _ r sp cs (some meta) hseenr
                  · have hcs : cs = [] := by
                      by_contra hne
                      exact hseenr
                        (hSeen.mem (mem_seenAdd_self s.seen sp (List.length_pos.mpr hne)))
                    subst hcs
                    have h2r : knownID r.order meta.parentID = true :=
                      knownID_ext ((addMeta_ext s.order meta).trans hOrd) h2'
                    have hAddr : addMeta r.order meta = r.order :=
                      addMeta_of_known hKb
                    have h3r : knownID (addMeta r.order meta) sp.bunchID = true := by
                      rw [hAddr]
                      exact knownID_ext hOrd h3'
                    rw [rss_process _ r sp [] meta hseenr h2r h3r, hPb]
                    show procState r sp [] meta = r
                    unfold procState
                    rw [hAddr]
                    rfl
                cases hLk : pendingLookup s.pending meta.bunchID with
                | none =>
                    refine hmain (procState s sp cs meta) (Ext.refl _) (Ext.refl _)
                      (knownID_addMeta_self s.order meta) ?_
                    exact hLk
                | some msgs =>
                    set f1 := 2 * pendingTotal s.pending + 1 with hf1
                    set s3 : CrdtState :=
                      { procState s sp cs meta with
                        pending := pendingErase s.pending meta.bunchID } with hs3
                    have hstart : knownID s3.order meta.bunchID = true ∧
                        pendingLookup s3.pending meta.bunchID = none := by
                      constructor
                      · exact knownID_addMeta_self s.order meta
                      · show pendingLookup (pendingErase s.pending meta.bunchID)
                          meta.bunchID = none
                        rw [pendingLookup_pendingErase]
                        simp
                    have hfold : ∀ r : CrdtState,
                        (Ext (addMeta s.order meta) r.order ∧
                          Ext (seenAdd s.seen sp cs.length) r.seen) ∧
                        (knownID r.order meta.bunchID = true ∧
                          pendingLookup r.pending meta.bunchID = none) →
                        ∀ m', ((Ext (addMeta s.order meta)
                              (receiveFuel f1 r m').order ∧
                            Ext (seenAdd s.seen sp cs.length)
                              (receiveFuel f1 r m').seen) ∧
                          (knownID (receiveFuel f1 r m').order meta.bunchID = true ∧
                            pendingLookup (receiveFuel f1 r m').pending
                              meta.bunchID = none)) := by
                      intro r hr m'
                      refine ⟨⟨hr.1.1.trans (receiveFuel_ext f1 r m').1,
                        hr.1.2.trans (receiveFuel_ext f1 r m').2⟩, ?_⟩
                      exact receiveFuel_noBucket f1 r m' meta.bunchID hr.2.1 hr.2.2
                    have hres := foldl_preserve
                      (g := receiveFuel f1)
                      (P := fun (st : CrdtState) =>
                        (Ext (addMeta s.order meta) st.order ∧
                          Ext (seenAdd s.seen sp cs.length) st.seen) ∧
                        (knownID st.order meta.bunchID = true ∧
                          pendingLookup st.pending meta.bunchID = none))
                      (fun st a hst => hfold st hst a) msgs s3
                      ⟨⟨Ext.refl _, Ext.refl _⟩, hstart⟩
                    exact hmain (msgs.foldl (receiveFuel f1) s3)
                      hres.1.1 hres.1.2 hres.2.1 hres.2.2

/-! ### Concrete scenarios used by the claims -/

/-- C1: the convergence claim fails on this code.  Two replicas that both
start empty and receive the same two messages (the five-character `set` and
the one-position `delete`) disagree depending on delivery order: set-then-
delete yields "abde" but delete-then-set yields "abcde", because the `set`
branch bulk-writes the whole run guarded only by `startPos`, re-inserting the
already-deleted position.  This contradicts the repository's own tests
("allows delete with missing deps" expects "abde" for the second order). -/
theorem receive_order_dependence_exec :
    sliceAll (receive (receive initial exSetMsg) exDelMsg) = ['a', 'b', 'd', 'e'] ∧
    sliceAll (receive (receive initial exDelMsg) exSetMsg) = ['a', 'b', 'c', 'd', 'e'] ∧
    sliceAll (receive (receive initial exSetMsg) exDelMsg) ≠
      sliceAll (receive (receive initial exDelMsg) exSetMsg) := by
  refine ⟨rfl, rfl, ?_⟩
  decide

/-- C2: the delete-before-insert scenario evaluated on the code.  Replica A
inserts "abcde" and deletes index 2; A ends at "abde".  Replica B receives
the `Delete` first (a no-op on its store) and then the `Set`; the claim (and
the repository's test) says B ends at "abde", but the code's bulk `text.set`
re-inserts the tombstoned position and B ends at "abcde" instead. -/
theorem delete_before_insert_scenario_exec :
    sliceAll (deleteAt (insertAt initial 0 ['a', 'b', 'c', 'd', 'e']).1 2 1).1 =
      ['a', 'b', 'd', 'e'] ∧
    sliceAll
      (receive
        (receive initial (deleteAt (insertAt initial 0 ['a', 'b', 'c', 'd', 'e']).1 2 1).2)
        (insertAt initial 0 ['a', 'b', 'c', 'd', 'e']).2) =
      ['a', 'b', 'c', 'd', 'e'] := by
  exact ⟨rfl, rfl⟩

/-- C3: after `insertAt(0, "ab")` on a fresh replica the run's two positions
are both in the value store, but only the start position is in the seen set:
the source calls `this.seen.add(pos)` without a count.  This contradicts the
claim (and the repository's test "merges delete of new pos", which needs the
whole run to be seen for merging). -/
theorem insertAt_seen_gap_exec :
    storeHas (insertAt initial 0 ['a', 'b']).1.store ⟨"B0", 0⟩ = true ∧
    storeHas (insertAt initial 0 ['a', 'b']).1.store ⟨"B0", 1⟩ = true ∧
    ((⟨"B0", 0⟩ : Pos) ∈ (insertAt initial 0 ['a', 'b']).1.seen) ∧
    ¬ ((⟨"B0", 1⟩ : Pos) ∈ (insertAt initial 0 ['a', 'b']).1.seen) := by
  refine ⟨rfl, rfl, ?_, ?_⟩ <;> decide

/-- C4: delete dominance fails on this code.  A replica applies a delete for
position (B0, 2) (receiving the `Delete` message marks it seen), yet a
subsequent `Set` whose run covers that position makes it present again,
because the bulk write is guarded only by the start position. -/
theorem delete_dominance_violation_exec :
    ((⟨"B0", 2⟩ : Pos) ∈ (receive initial exDelMsg).seen) ∧
    storeHas (receive (receive initial exDelMsg) exSetMsg).store ⟨"B0", 2⟩ = true := by
  refine ⟨?_, rfl⟩
  decide

/-- C6: `load` is not commutative on this code.  Loading snapshot A (a
replica that inserted "ab", whose seen set lacks the second position) and
snapshot B (a replica that received the insert and deleted the second
character) in the two orders yields "ab" versus "a": in the A-then-B order
the merge treats the locally-present but locally-unseen position as new
information from B and never applies B's delete.  The discrepancy is enabled
by the `insertAt` seen gap (claim C3's bug). -/
theorem load_order_dependence_exec :
    sliceAll (load (load initial exSnapA) exSnapB) = ['a', 'b'] ∧
    sliceAll (load (load initial exSnapB) exSnapA) = ['a'] ∧
    sliceAll (load (load initial exSnapA) exSnapB) ≠
      sliceAll (load (load initial exSnapB) exSnapA) := by
  refine ⟨rfl, rfl, ?_⟩
  decide

/-- C10: `load` neither reads nor writes the pending buffer on either path,
so buffered messages survive a load.  The second conjunct replays this
concretely: a message buffered as waiting on bunch "B0" is still present
after loading an unrelated snapshot, and a later `Set` registering "B0"
drains the bucket and applies the buffered insertion. -/
theorem load_preserves_pending :
    (∀ (s : CrdtState) (snap : SavedState), (load s snap).pending = s.pending) ∧
    storeHas
      (receive
        (load (receive initial (Msg.set ⟨"B1", 0⟩ ['x'] (some ⟨"B1", "B0"⟩)))
          (save (receive initial (Msg.set ⟨"B9", 0⟩ ['z'] (some ⟨"B9", rootID⟩)))))
        (Msg.set ⟨"B0", 0⟩ ['y'] (some ⟨"B0", rootID⟩))).store
      ⟨"B1", 0⟩ = true := by
  constructor
  · intro s snap
    unfold load
    split <;> rfl
  · rfl

end Crdt
